import Mathlib

/-!
Verification of the sortition module (src/sortition/mod.rs) of this repository.

The Rust module implements Algorand-style cryptographic sortition:

* `get_largest(length)` builds a hex string of `2 * length` characters `f`,
  parses it as a big integer and adds one, producing `16 ^ (2 * length)`
  (that is `2 ^ (8 * length)`); parsing the empty string yields no value and
  the `unwrap` panics.
* `lottery(hash, threshold, money, total_money)` computes
  `p = threshold / total_money`, builds `Binomial::new(p, money)` (the
  `unwrap` panics when `p` is NaN, infinite, negative or greater than one —
  in particular whenever `total_money = 0`), converts the big-endian hash
  and `get_largest(hash.len())` to `f64` and divides them to obtain `ratio`,
  then scans `i = 0, 1, ...` returning the first `i < money` with
  `ratio <= cdf(i)` and `money` when no such `i` exists.
* `check_select` calls `vrf.prove` and `vrf.proof_to_hash` (both unwrapped)
  and then `lottery`.
* `verify_select` calls `vrf.verify` and returns `1` on success and `0` on
  failure; it takes no claimed vote count.

Modelling conventions.  Bytes are natural numbers, byte strings are lists;
machine floats are modelled two ways: the integer-to-`f64` conversions and
the `f64` division of the ratio computation are modelled exactly as IEEE
round-to-nearest-even at 53-bit precision over `ℚ` (unbounded exponent:
every value the code manipulates is far inside the normal range), while the
binomial CDF values (computed by `statrs` through the regularised
incomplete beta function) are modelled as the exact rational CDF of the
binomial distribution.  Rust panics are modelled with `Except`.
-/

set_option maxRecDepth 8000

/-- Floor of the base-two logarithm of a natural number, fuel-driven so the
kernel can evaluate it.  `natLog2F fuel n` equals `⌊log₂ n⌋` whenever
`1 ≤ n ≤ fuel`. -/
def natLog2F : ℕ → ℕ → ℕ
  | 0, _ => 0
  | fuel + 1, n => if n < 2 then 0 else natLog2F fuel (n / 2) + 1

/-- Ceiling of the base-two logarithm of a rational `x > 1`, fuel-driven:
the least `k` with `x ≤ 2 ^ k` (whenever `x ≤ 2 ^ fuel`). -/
def natClog2F : ℕ → ℚ → ℕ
  | 0, _ => 0
  | fuel + 1, x => if x ≤ 1 then 0 else natClog2F fuel (x / 2) + 1

/-- Floor of the base-two logarithm of a positive rational. -/
def qlog2 (q : ℚ) : ℤ :=
  if 1 ≤ q then (natLog2F ⌊q⌋.toNat ⌊q⌋.toNat : ℤ)
  else -(natClog2F ⌈1 / q⌉.toNat (1 / q) : ℤ)

/-- Round a rational to the nearest integer, ties to even (the IEEE 754
default rounding applied at integer granularity). -/
def roundNE (x : ℚ) : ℤ :=
  if x - ⌊x⌋ < 1 / 2 then ⌊x⌋
  else if 1 / 2 < x - ⌊x⌋ then ⌊x⌋ + 1
  else if 2 ∣ ⌊x⌋ then ⌊x⌋ else ⌊x⌋ + 1

/-- Round a nonnegative rational to the nearest binary64 value
(round-to-nearest-even at 53 significant bits, unbounded exponent). -/
def roundF64 (q : ℚ) : ℚ :=
  if q ≤ 0 then 0
  else (roundNE (q / 2 ^ (qlog2 q - 52)) : ℚ) * 2 ^ (qlog2 q - 52)

/-- Model of the `f64` division of two (nonnegative) `f64` values: divide
exactly in `ℚ`, then round the quotient to binary64. -/
def f64Div (a b : ℚ) : ℚ := roundF64 (a / b)

/-- Model of `BigUint::to_f64().unwrap()`: convert a natural number to the
nearest binary64 value.  (For the at most 32-byte integers the code
converts, `num-bigint` returns `Some` of exactly this rounding.) -/
def to_f64 (n : ℕ) : ℚ := roundF64 n

/-- Model of `BigUint::from_bytes_be`: big-endian bytes to a natural
number. -/
def fromBytesBE (hash : List ℕ) : ℕ :=
  hash.foldl (fun acc b => acc * 256 + b) 0

/-- Model of `BigUint::parse_bytes(fs, 16)` applied to a string of `k`
characters `f`: `None` for the empty string, otherwise the value of the
hex digits, accumulated left to right exactly as a radix parser does. -/
def parseHexFs (k : ℕ) : Option ℕ :=
  if k = 0 then none
  else some ((List.range k).foldl (fun acc _ => acc * 16 + 15) 0)

/-- Model of `get_largest` (src/sortition/mod.rs lines 9-15): double the
length, parse that many `f` hex digits and add one.  `none` models the
panic of `unwrap` on the empty string. -/
def get_largest (length : ℕ) : Option ℕ :=
  (parseHexFs (length * 2)).map (fun largest => largest + 1)

/-- Exact cumulative distribution function of `Binomial(n, p)` at `i`,
defined by the recursion `F(i+1) = F(i) + C(n, i+1) p^(i+1) (1-p)^(n-i-1)`.
This models the value `dist.cdf(i as f64)` that `statrs` computes through
the regularised incomplete beta function. -/
def binCDF (n : ℕ) (p : ℚ) : ℕ → ℚ
  | 0 => (1 - p) ^ n
  | i + 1 => binCDF n p i + (n.choose (i + 1) : ℚ) * p ^ (i + 1) * (1 - p) ^ (n - (i + 1))

/-- The scan of the `for i in 0..money` loop of `lottery`: starting at
index `s` with `rem` iterations left, return the first index satisfying
`pred`, and `s + rem` when none does. -/
def scanQ (pred : ℕ → Prop) [DecidablePred pred] : ℕ → ℕ → ℕ
  | s, 0 => s
  | s, rem + 1 => if pred s then s else scanQ pred (s + 1) rem

/-- The binomial quantile computed by the loop of `lottery` (lines 25-33):
the first `i < n` with `ratio ≤ F(i)`, and `n` when no such `i` exists. -/
def quantile (ratio p : ℚ) (n : ℕ) : ℕ :=
  scanQ (fun i => ratio ≤ binCDF n p i) 0 n

/-- The panics that can abort `lottery` and `check_select`, in the order
the code can hit them. -/
inductive SortPanic : Type
  | vrfProveFail : SortPanic
  | vrfHashFail : SortPanic
  | badParams : SortPanic
  | emptyHash : SortPanic
deriving DecidableEq

/-- Model of `lottery` (src/sortition/mod.rs lines 17-34).  In source
order: `p = threshold / (total_money as f64)` (an `f64` division: NaN or
infinite when `total_money = 0`), then `Binomial::new(p, money).unwrap()`
(`badParams` models the panic when `p` is not a probability), then the
big-endian value of the hash and `get_largest(hash.len()).unwrap()`
(`emptyHash` models the panic on a zero-length hash) are converted to
`f64` and divided, and the CDF scan returns the vote count. -/
def lottery (hash : List ℕ) (threshold : ℚ) (money total_money : ℕ) :
    Except SortPanic ℕ :=
  if total_money = 0 then Except.error SortPanic.badParams
  else
    let p := threshold / (total_money : ℚ)
    if p < 0 ∨ 1 < p then Except.error SortPanic.badParams
    else
      match get_largest hash.length with
      | none => Except.error SortPanic.emptyHash
      | some largest =>
        let num := to_f64 (fromBytesBE hash)
        let denom := to_f64 largest
        let ratio := f64Div num denom
        Except.ok (quantile ratio p money)

/-- The unit-interval mapping of `lottery` (lines 21-23) in isolation:
`ratio = to_f64(H) / to_f64(get_largest(L))`, an `f64` division of two
`f64` conversions.  `none` models the `get_largest` panic at length 0. -/
def map_ratio (hash : List ℕ) : Option ℚ :=
  (get_largest hash.length).map
    (fun largest => f64Div (to_f64 (fromBytesBE hash)) (to_f64 largest))

/-- Model of `check_select` (lines 36-45).  The VRF capability is abstract:
`vrfProve` models `vrf.prove(&sk, &seed)` and `vrfHash` models
`vrf.proof_to_hash(&pi)`; both results are unwrapped (panic on error)
before `lottery` runs. -/
def check_select (vrfProve : List ℕ → List ℕ → Except Unit (List ℕ))
    (vrfHash : List ℕ → Except Unit (List ℕ))
    (sk seed : List ℕ) (threshold : ℚ) (money total_money : ℕ) :
    Except SortPanic (ℕ × List ℕ) :=
  match vrfProve sk seed with
  | Except.error _ => Except.error SortPanic.vrfProveFail
  | Except.ok pi =>
    match vrfHash pi with
    | Except.error _ => Except.error SortPanic.vrfHashFail
    | Except.ok hash =>
      match lottery hash threshold money total_money with
      | Except.error e => Except.error e
      | Except.ok lottery_num => Except.ok (lottery_num, pi)

/-- Model of `verify_select` (lines 47-60): run `vrf.verify(&pk, &pi,
&seed)` and return `1` on `Ok` and `0` on `Err`.  It takes no claimed vote
count and performs no recomputation. -/
def verify_select (vrfVerify : List ℕ → List ℕ → List ℕ → Except Unit (List ℕ))
    (pk pi seed : List ℕ) : ℕ :=
  match vrfVerify pk pi seed with
  | Except.ok _ => 1
  | Except.error _ => 0

/-- Modelled from the spec: the full verification contract of spec section
4.4, which the source's `verify_select` does not implement (the source
never receives a claimed vote count).  Verify the proof cryptographically,
recompute the vote count from the verified hash exactly as selection does,
and accept only when it equals the claimed count. -/
def spec_verify (vrfVerify : List ℕ → List ℕ → List ℕ → Except Unit (List ℕ))
    (pk : List ℕ) (claimedVoteCount : ℕ) (pi seed : List ℕ)
    (threshold : ℚ) (money total_money : ℕ) : Bool :=
  match vrfVerify pk pi seed with
  | Except.error _ => false
  | Except.ok hash =>
    match lottery hash threshold money total_money with
    | Except.error _ => false
    | Except.ok expected => decide (claimedVoteCount = expected)

/-! ### Properties of the CDF scan -/

theorem scanQ_ge (pred : ℕ → Prop) [DecidablePred pred] :
    ∀ rem s, s ≤ scanQ pred s rem := by
  intro rem
  induction rem with
  | zero => intro s; simp [scanQ]
  | succ rem ih =>
    intro s
    by_cases h : pred s
    · simp [scanQ, h]
    · simp only [scanQ, h, if_false]
      exact le_trans (Nat.le_succ s) (ih (s + 1))

theorem scanQ_le (pred : ℕ → Prop) [DecidablePred pred] :
    ∀ rem s, scanQ pred s rem ≤ s + rem := by
  intro rem
  induction rem with
  | zero => intro s; simp [scanQ]
  | succ rem ih =>
    intro s
    by_cases h : pred s
    · simp [scanQ, h]
    · simp only [scanQ, h, if_false]
      calc scanQ pred (s + 1) rem ≤ s + 1 + rem := ih (s + 1)
        _ = s + (rem + 1) := by omega

theorem scanQ_not_pred (pred : ℕ → Prop) [DecidablePred pred] :
    ∀ rem s j, s ≤ j → j < scanQ pred s rem → ¬ pred j := by
  intro rem
  induction rem with
  | zero =>
    intro s j hsj hj
    simp only [scanQ] at hj
    omega
  | succ rem ih =>
    intro s j hsj hj
    by_cases h : pred s
    · simp only [scanQ, h, if_true] at hj
      omega
    · simp only [scanQ, h, if_false] at hj
      rcases Nat.eq_or_lt_of_le hsj with heq | hlt
      · exact heq ▸ h
      · exact ih (s + 1) j hlt hj

theorem scanQ_pred_of_lt (pred : ℕ → Prop) [DecidablePred pred] :
    ∀ rem s, scanQ pred s rem < s + rem → pred (scanQ pred s rem) := by
  intro rem
  induction rem with
  | zero => intro s h; simp [scanQ] at h
  | succ rem ih =>
    intro s h
    by_cases hp : pred s
    · simp [scanQ, hp]
    · simp only [scanQ, hp, if_false] at h ⊢
      exact ih (s + 1) (by omega)

theorem scanQ_eq_of_all_not (pred : ℕ → Prop) [DecidablePred pred]
    (rem s : ℕ) (h : ∀ j, s ≤ j → j < s + rem → ¬ pred j) :
    scanQ pred s rem = s + rem := by
  rcases Nat.lt_or_ge (scanQ pred s rem) (s + rem) with hlt | hge
  · exact absurd (scanQ_pred_of_lt pred rem s hlt)
      (h _ (scanQ_ge pred rem s) hlt)
  · exact le_antisymm (scanQ_le pred rem s) hge

theorem scanQ_mono_pred (p1 p2 : ℕ → Prop) [DecidablePred p1] [DecidablePred p2]
    (himp : ∀ i, p2 i → p1 i) :
    ∀ rem s, scanQ p1 s rem ≤ scanQ p2 s rem := by
  intro rem
  induction rem with
  | zero => intro s; simp [scanQ]
  | succ rem ih =>
    intro s
    by_cases h2 : p2 s
    · have h1 : p1 s := himp s h2
      simp [scanQ, h1, h2]
    · by_cases h1 : p1 s
      · simp only [scanQ, h1, h2, if_true, if_false]
        exact le_trans (Nat.le_succ s) (scanQ_ge p2 rem (s + 1))
      · simp only [scanQ, h1, h2, if_false]
        exact ih (s + 1)

/-! ### Properties of the exact binomial CDF -/

theorem binCDF_eq_sum (n : ℕ) (p : ℚ) :
    ∀ i, binCDF n p i =
      ∑ k in Finset.range (i + 1), (n.choose k : ℚ) * p ^ k * (1 - p) ^ (n - k) := by
  intro i
  induction i with
  | zero => simp [binCDF]
  | succ i ih =>
    rw [Finset.sum_range_succ, ← ih]
    rfl

theorem binCDF_self (n : ℕ) (p : ℚ) : binCDF n p n = 1 := by
  rw [binCDF_eq_sum]
  have h := add_pow p (1 - p) n
  have h1 : p + (1 - p) = 1 := by ring
  rw [h1, one_pow] at h
  have h2 : ∑ k in Finset.range (n + 1), (n.choose k : ℚ) * p ^ k * (1 - p) ^ (n - k) =
      ∑ k in Finset.range (n + 1), p ^ k * (1 - p) ^ (n - k) * (n.choose k : ℚ) :=
    Finset.sum_congr rfl (fun k _ => by ring)
  rw [h2, ← h]

theorem binCDF_p_one (n i : ℕ) (h : i < n) : binCDF n 1 i = 0 := by
  rw [binCDF_eq_sum]
  apply Finset.sum_eq_zero
  intro k hk
  rw [Finset.mem_range] at hk
  have hnk : n - k ≠ 0 := by omega
  rw [sub_self, zero_pow hnk, mul_zero]

/-! ### Properties of the quantile scan -/

theorem quantile_le (ratio p : ℚ) (n : ℕ) : quantile ratio p n ≤ n := by
  have h := scanQ_le (fun i => ratio ≤ binCDF n p i) n 0
  simpa [quantile] using h

theorem quantile_p_one_pos (ratio : ℚ) (n : ℕ) (h : 0 < ratio) :
    quantile ratio 1 n = n := by
  unfold quantile
  have := scanQ_eq_of_all_not (fun i => ratio ≤ binCDF n 1 i) n 0
    (by
      intro j _ hj
      simp only [Nat.zero_add] at hj
      simp only [binCDF_p_one n j hj, not_le]
      exact h)
  simpa using this

/-! ### Properties of the binary64 rounding model -/

theorem natLog2F_le (fuel : ℕ) : ∀ n, 1 ≤ n → 2 ^ natLog2F fuel n ≤ n := by
  induction fuel with
  | zero => intro n h; simpa [natLog2F] using h
  | succ fuel ih =>
    intro n h
    by_cases h2 : n < 2
    · simp only [natLog2F, h2, if_true, pow_zero]
      exact h
    · simp only [natLog2F, h2, if_false]
      have h1 : 1 ≤ n / 2 := by omega
      have hrec := ih (n / 2) h1
      calc 2 ^ (natLog2F fuel (n / 2) + 1) = 2 ^ natLog2F fuel (n / 2) * 2 := by ring
        _ ≤ n / 2 * 2 := Nat.mul_le_mul_right 2 hrec
        _ ≤ n := by omega

theorem natLog2F_lt (fuel : ℕ) : ∀ n, n ≤ fuel → n < 2 ^ (natLog2F fuel n + 1) := by
  induction fuel with
  | zero =>
    intro n h
    simp only [natLog2F, pow_succ, pow_zero]
    omega
  | succ fuel ih =>
    intro n h
    by_cases h2 : n < 2
    · simp only [natLog2F, h2, if_true, pow_succ, pow_zero]
      omega
    · simp only [natLog2F, h2, if_false]
      have hrec := ih (n / 2) (by omega)
      have hpow : 2 ^ (natLog2F fuel (n / 2) + 1 + 1) = 2 ^ (natLog2F fuel (n / 2) + 1) * 2 :=
        pow_succ 2 _
      omega

theorem natClog2F_ge (fuel : ℕ) : ∀ x : ℚ, x ≤ 2 ^ fuel → x ≤ 2 ^ natClog2F fuel x := by
  induction fuel with
  | zero => intro x h; simpa [natClog2F] using h
  | succ fuel ih =>
    intro x h
    by_cases h1 : x ≤ 1
    · simpa [natClog2F, h1] using h1
    · simp only [natClog2F, h1, if_false]
      have hhalf : x / 2 ≤ 2 ^ fuel := by
        rw [div_le_iff (by norm_num : (0:ℚ) < 2)]
        calc x ≤ 2 ^ (fuel + 1) := h
          _ = 2 ^ fuel * 2 := by ring
      have hrec := ih (x / 2) hhalf
      rw [pow_succ]
      calc x = x / 2 * 2 := by ring
        _ ≤ 2 ^ natClog2F fuel (x / 2) * 2 :=
          mul_le_mul_of_nonneg_right hrec (by norm_num)

theorem natClog2F_lt (fuel : ℕ) : ∀ x : ℚ, 1 < x → (2:ℚ) ^ natClog2F fuel x < 2 * x := by
  induction fuel with
  | zero =>
    intro x hx
    simp only [natClog2F, pow_zero]
    linarith
  | succ fuel ih =>
    intro x hx
    simp only [natClog2F, if_neg (not_le.mpr hx)]
    by_cases h2 : 1 < x / 2
    · have hrec := ih (x / 2) h2
      have hxx : 2 * (x / 2) = x := by ring
      rw [hxx] at hrec
      rw [pow_succ]
      linarith
    · have hC : natClog2F fuel (x / 2) = 0 := by
        cases fuel with
        | zero => rfl
        | succ f => simp [natClog2F, not_lt.mp h2]
      rw [hC, pow_one]
      linarith

theorem qlog2_bounds (q : ℚ) (hq : 0 < q) :
    (2:ℚ) ^ qlog2 q ≤ q ∧ q < 2 ^ (qlog2 q + 1) := by
  unfold qlog2
  by_cases h1 : (1:ℚ) ≤ q
  · rw [if_pos h1]
    have hfl : (1:ℤ) ≤ ⌊q⌋ := by
      rw [Int.le_floor]
      exact_mod_cast h1
    have hn : 1 ≤ ⌊q⌋.toNat := by omega
    have hcast : ((⌊q⌋.toNat : ℕ) : ℚ) = ((⌊q⌋ : ℤ) : ℚ) := by
      rw [← Int.cast_natCast, Int.toNat_of_nonneg (by omega)]
    constructor
    · have hle := natLog2F_le ⌊q⌋.toNat ⌊q⌋.toNat hn
      have hle2 : ((2 ^ natLog2F ⌊q⌋.toNat ⌊q⌋.toNat : ℕ) : ℚ) ≤ ((⌊q⌋.toNat : ℕ) : ℚ) := by
        exact_mod_cast hle
      rw [zpow_natCast]
      calc (2:ℚ) ^ natLog2F ⌊q⌋.toNat ⌊q⌋.toNat
          = ((2 ^ natLog2F ⌊q⌋.toNat ⌊q⌋.toNat : ℕ) : ℚ) := by push_cast; ring
        _ ≤ ((⌊q⌋.toNat : ℕ) : ℚ) := hle2
        _ = ((⌊q⌋ : ℤ) : ℚ) := hcast
        _ ≤ q := Int.floor_le q
    · have hlt := natLog2F_lt ⌊q⌋.toNat ⌊q⌋.toNat le_rfl
      have hlt2 : ((⌊q⌋.toNat : ℕ) : ℚ) + 1 ≤ ((2 ^ (natLog2F ⌊q⌋.toNat ⌊q⌋.toNat + 1) : ℕ) : ℚ) := by
        exact_mod_cast hlt
      have hstep : q < ((⌊q⌋.toNat : ℕ) : ℚ) + 1 := by
        rw [hcast]
        exact Int.lt_floor_add_one q
      calc q < ((⌊q⌋.toNat : ℕ) : ℚ) + 1 := hstep
        _ ≤ ((2 ^ (natLog2F ⌊q⌋.toNat ⌊q⌋.toNat + 1) : ℕ) : ℚ) := hlt2
        _ = (2:ℚ) ^ ((natLog2F ⌊q⌋.toNat ⌊q⌋.toNat : ℤ) + 1) := by
          push_cast
          rw [zpow_add₀ (by norm_num : (2:ℚ) ≠ 0), zpow_natCast, zpow_one]
          ring
  · rw [if_neg h1]
    have hq1 : q < 1 := not_le.mp h1
    have hx : 1 < 1 / q := one_lt_one_div hq hq1
    have hx0 : 0 < 1 / q := by positivity
    have hceil1 : (1:ℤ) ≤ ⌈1/q⌉ := Int.ceil_pos.mpr hx0
    have hfuel : (1/q) ≤ 2 ^ ⌈1/q⌉.toNat := by
      calc 1/q ≤ ((⌈1/q⌉ : ℤ) : ℚ) := Int.le_ceil _
        _ = ((⌈1/q⌉.toNat : ℕ) : ℚ) := by
          rw [← Int.cast_natCast, Int.toNat_of_nonneg (by omega)]
        _ ≤ ((2 ^ ⌈1/q⌉.toNat : ℕ) : ℚ) := by
          exact_mod_cast (Nat.lt_two_pow ⌈1/q⌉.toNat).le
        _ = (2:ℚ) ^ ⌈1/q⌉.toNat := by push_cast; ring
    have hge := natClog2F_ge ⌈1/q⌉.toNat (1/q) hfuel
    have hlt := natClog2F_lt ⌈1/q⌉.toNat (1/q) hx
    have h2C : (0:ℚ) < 2 ^ natClog2F ⌈1/q⌉.toNat (1/q) := by positivity
    constructor
    · rw [zpow_neg, zpow_natCast]
      have hinv := inv_le_inv_of_le hx0 hge
      have hqq : (1/q)⁻¹ = q := by field_simp
      rwa [hqq] at hinv
    · have key : (2:ℚ) ^ natClog2F ⌈1/q⌉.toNat (1/q) < 2 / q := by
        have h2 : 2 * (1 / q) = 2 / q := by ring
        rwa [h2] at hlt
      have hq2 : q < 2 / 2 ^ natClog2F ⌈1/q⌉.toNat (1/q) := by
        rw [lt_div_iff h2C]
        rw [lt_div_iff hq] at key
        linarith
      have hzp : (2:ℚ) ^ (-(natClog2F ⌈1/q⌉.toNat (1/q) : ℤ) + 1) =
          2 / 2 ^ natClog2F ⌈1/q⌉.toNat (1/q) := by
        rw [show -(natClog2F ⌈1/q⌉.toNat (1/q) : ℤ) + 1 = 1 - (natClog2F ⌈1/q⌉.toNat (1/q) : ℤ) by ring]
        rw [zpow_sub₀ (by norm_num : (2:ℚ) ≠ 0), zpow_one, zpow_natCast]
      rw [hzp]
      exact hq2

theorem qlog2_eq (q : ℚ) (k : ℤ) (h1 : (2:ℚ) ^ k ≤ q) (h2 : q < 2 ^ (k + 1)) :
    qlog2 q = k := by
  have hq : 0 < q := lt_of_lt_of_le (by positivity) h1
  obtain ⟨hb1, hb2⟩ := qlog2_bounds q hq
  by_contra hne
  rcases lt_or_gt_of_ne hne with hlt | hgt
  · have hstep : (2:ℚ) ^ (qlog2 q + 1) ≤ 2 ^ k :=
      zpow_le_zpow_right₀ (by norm_num) (by omega)
    linarith
  · have hstep : (2:ℚ) ^ (k + 1) ≤ 2 ^ qlog2 q :=
      zpow_le_zpow_right₀ (by norm_num) (by omega)
    linarith

theorem roundNE_intCast (n : ℤ) : roundNE (n : ℚ) = n := by
  have h : (n:ℚ) - ⌊(n:ℚ)⌋ < 1/2 := by
    rw [Int.floor_intCast]
    norm_num
  unfold roundNE
  rw [if_pos h, Int.floor_intCast]

theorem roundNE_ge_floor (x : ℚ) : ⌊x⌋ ≤ roundNE x := by
  unfold roundNE
  split_ifs <;> omega

theorem roundF64_nonpos (q : ℚ) (h : q ≤ 0) : roundF64 q = 0 := by
  unfold roundF64
  rw [if_pos h]

theorem roundF64_eq_form (q : ℚ) (hq : 0 < q) :
    roundF64 q = (roundNE (q / 2 ^ (qlog2 q - 52)) : ℚ) * 2 ^ (qlog2 q - 52) := by
  unfold roundF64
  rw [if_neg (not_le.mpr hq)]

theorem roundF64_pos (q : ℚ) (hq : 0 < q) : 0 < roundF64 q := by
  rw [roundF64_eq_form q hq]
  have he : (0:ℚ) < 2 ^ (qlog2 q - 52) := by positivity
  have hx : (1:ℚ) ≤ q / 2 ^ (qlog2 q - 52) := by
    rw [le_div_iff he, one_mul]
    calc (2:ℚ) ^ (qlog2 q - 52) ≤ 2 ^ qlog2 q :=
        zpow_le_zpow_right₀ (by norm_num) (by omega)
      _ ≤ q := (qlog2_bounds q hq).1
  have hfl : (1:ℤ) ≤ ⌊q / 2 ^ (qlog2 q - 52)⌋ := by
    rw [Int.le_floor]
    exact_mod_cast hx
  have hr : (1:ℚ) ≤ (roundNE (q / 2 ^ (qlog2 q - 52)) : ℚ) := by
    exact_mod_cast le_trans hfl (roundNE_ge_floor _)
  exact mul_pos (lt_of_lt_of_le one_pos hr) he

theorem roundF64_dyadic (m : ℕ) (k : ℤ) (h1 : 2 ^ 52 ≤ m) (h2 : m < 2 ^ 53) :
    roundF64 ((m : ℚ) * 2 ^ k) = (m : ℚ) * 2 ^ k := by
  have hm : (0:ℚ) < m := by
    have : 0 < m := by positivity
    exact_mod_cast this
  have hk : (0:ℚ) < 2 ^ k := by positivity
  have hq : 0 < (m:ℚ) * 2 ^ k := mul_pos hm hk
  have h52 : (2:ℚ) ^ (52:ℤ) = ((2 ^ 52 : ℕ) : ℚ) := by
    rw [show (52:ℤ) = ((52:ℕ):ℤ) from rfl, zpow_natCast]
    push_cast
    ring
  have h53 : (2:ℚ) ^ (53:ℤ) = ((2 ^ 53 : ℕ) : ℚ) := by
    rw [show (53:ℤ) = ((53:ℕ):ℤ) from rfl, zpow_natCast]
    push_cast
    ring
  have hlog : qlog2 ((m:ℚ) * 2 ^ k) = 52 + k := by
    apply qlog2_eq
    · rw [zpow_add₀ (by norm_num : (2:ℚ) ≠ 0)]
      apply mul_le_mul_of_nonneg_right _ (le_of_lt hk)
      rw [h52]
      exact_mod_cast h1
    · rw [show (52:ℤ) + k + 1 = 53 + k by ring, zpow_add₀ (by norm_num : (2:ℚ) ≠ 0)]
      apply mul_lt_mul_of_pos_right _ hk
      rw [h53]
      exact_mod_cast h2
  rw [roundF64_eq_form _ hq, hlog]
  rw [show (52:ℤ) + k - 52 = k by ring]
  rw [mul_div_cancel_right₀ _ (ne_of_gt hk)]
  rw [show ((m:ℕ):ℚ) = (((m:ℕ):ℤ):ℚ) by push_cast; ring, roundNE_intCast]

theorem to_f64_zero : to_f64 0 = 0 := by
  unfold to_f64
  rw [Nat.cast_zero]
  exact roundF64_nonpos 0 le_rfl

theorem to_f64_pos (n : ℕ) (h : 1 ≤ n) : 0 < to_f64 n := by
  apply roundF64_pos
  exact_mod_cast h

theorem f64Div_zero_left (b : ℚ) : f64Div 0 b = 0 := by
  unfold f64Div
  rw [zero_div]
  exact roundF64_nonpos 0 le_rfl

theorem f64Div_pos (a b : ℚ) (ha : 0 < a) (hb : 0 < b) : 0 < f64Div a b :=
  roundF64_pos _ (div_pos ha hb)

/-! ### Concrete binary64 evaluations -/

theorem roundF64_one : roundF64 1 = 1 := by
  have h := roundF64_dyadic (2 ^ 52) (-52) le_rfl (by norm_num)
  have he : ((2 ^ 52 : ℕ) : ℚ) * 2 ^ (-52 : ℤ) = 1 := by
    push_cast
    rw [zpow_neg]
    norm_num
  rwa [he] at h

theorem roundF64_pow256 : roundF64 ((2:ℚ) ^ (256:ℕ)) = 2 ^ (256:ℕ) := by
  have h := roundF64_dyadic (2 ^ 52) 204 le_rfl (by norm_num)
  have he : ((2 ^ 52 : ℕ) : ℚ) * 2 ^ (204 : ℤ) = 2 ^ (256:ℕ) := by
    push_cast
    rw [show (204:ℤ) = ((204:ℕ):ℤ) from rfl, zpow_natCast]
    norm_num
  rwa [he] at h

theorem roundF64_pow256_sub_one : roundF64 ((2:ℚ) ^ (256:ℕ) - 1) = 2 ^ (256:ℕ) := by
  have hq : (0:ℚ) < 2 ^ (256:ℕ) - 1 := by norm_num
  have hlog : qlog2 ((2:ℚ) ^ (256:ℕ) - 1) = 255 := by
    apply qlog2_eq
    · rw [show (255:ℤ) = ((255:ℕ):ℤ) from rfl, zpow_natCast]
      norm_num
    · rw [show (255:ℤ) + 1 = ((256:ℕ):ℤ) from rfl, zpow_natCast]
      norm_num
  rw [roundF64_eq_form _ hq, hlog]
  rw [show (255:ℤ) - 52 = ((203:ℕ):ℤ) from rfl, zpow_natCast]
  have hfloor : ⌊((2:ℚ) ^ (256:ℕ) - 1) / 2 ^ (203:ℕ)⌋ = 2 ^ 53 - 1 := by
    rw [Int.floor_eq_iff]
    constructor
    · push_cast
      rw [le_div_iff (by positivity)]
      norm_num
    · push_cast
      rw [div_lt_iff (by positivity)]
      norm_num
  unfold roundNE
  rw [hfloor]
  have hcond1 : ¬(((2:ℚ) ^ (256:ℕ) - 1) / 2 ^ (203:ℕ) - ((2 ^ 53 - 1 : ℤ) : ℚ) < 1 / 2) := by
    push_cast
    rw [not_lt, le_sub_iff_add_le, le_div_iff (by positivity)]
    norm_num
  have hcond2 : 1 / 2 < ((2:ℚ) ^ (256:ℕ) - 1) / 2 ^ (203:ℕ) - ((2 ^ 53 - 1 : ℤ) : ℚ) := by
    push_cast
    rw [lt_sub_iff_add_lt, lt_div_iff (by positivity)]
    norm_num
  rw [if_neg hcond1, if_pos hcond2]
  push_cast
  norm_num

theorem to_f64_pow256_sub_one : to_f64 (2 ^ 256 - 1) = 2 ^ (256:ℕ) := by
  unfold to_f64
  have hc : ((2 ^ 256 - 1 : ℕ) : ℚ) = (2:ℚ) ^ (256:ℕ) - 1 := by
    push_cast
    norm_num
  rw [hc]
  exact roundF64_pow256_sub_one

theorem to_f64_pow256 : to_f64 (2 ^ 256) = 2 ^ (256:ℕ) := by
  unfold to_f64
  have hc : ((2 ^ 256 : ℕ) : ℚ) = (2:ℚ) ^ (256:ℕ) := by push_cast; ring
  rw [hc]
  exact roundF64_pow256

/-! ### Lottery-level helper lemmas -/

theorem foldl_hexFs : ∀ k : ℕ, (List.range k).foldl (fun acc _ => acc * 16 + 15) 0 = 16 ^ k - 1 := by
  intro k
  induction k with
  | zero => rfl
  | succ k ih =>
    rw [List.range_succ, List.foldl_append, ih]
    simp only [List.foldl_cons, List.foldl_nil]
    have h1 := Nat.one_le_pow k 16 (by norm_num)
    have hp : 16 ^ (k + 1) = 16 ^ k * 16 := pow_succ 16 k
    omega

theorem get_largest_eq (L : ℕ) (hL : L ≠ 0) : get_largest L = some (2 ^ (8 * L)) := by
  unfold get_largest parseHexFs
  rw [if_neg (by omega : ¬ L * 2 = 0)]
  simp only [Option.map_some']
  rw [foldl_hexFs]
  have h1 := Nat.one_le_pow (L * 2) 16 (by norm_num)
  have h2 : 16 ^ (L * 2) = 2 ^ (8 * L) := by
    rw [show (16:ℕ) = 2 ^ 4 from rfl, ← pow_mul]
    congr 1
    omega
  congr 1
  omega

theorem get_largest_zero : get_largest 0 = none := rfl

theorem lottery_ok_form (hash : List ℕ) (t : ℚ) (m tm : ℕ) (htm : tm ≠ 0)
    (hp : ¬(t / (tm:ℚ) < 0 ∨ 1 < t / (tm:ℚ))) (hh : hash ≠ []) :
    lottery hash t m tm =
      Except.ok (quantile
        (f64Div (to_f64 (fromBytesBE hash)) (to_f64 (2 ^ (8 * hash.length))))
        (t / (tm:ℚ)) m) := by
  have hlen : hash.length ≠ 0 := by
    simpa [List.length_eq_zero] using hh
  simp only [lottery, if_neg htm, if_neg hp, get_largest_eq hash.length hlen]

theorem lottery_error_of_bad (hash : List ℕ) (t : ℚ) (m tm : ℕ)
    (hbad : tm = 0 ∨ t / (tm:ℚ) < 0 ∨ 1 < t / (tm:ℚ)) :
    lottery hash t m tm = Except.error SortPanic.badParams := by
  by_cases h0 : tm = 0
  · simp [lottery, h0]
  · rcases hbad with h1 | h2
    · exact absurd h1 h0
    · simp only [lottery, if_neg h0, if_pos h2]

theorem lottery_ok_le (hash : List ℕ) (t : ℚ) (m tm v : ℕ)
    (h : lottery hash t m tm = Except.ok v) : v ≤ m := by
  by_cases h0 : tm = 0
  · rw [lottery_error_of_bad hash t m tm (Or.inl h0)] at h
    exact absurd h (by simp)
  · by_cases h2 : t / (tm:ℚ) < 0 ∨ 1 < t / (tm:ℚ)
    · rw [lottery_error_of_bad hash t m tm (Or.inr h2)] at h
      exact absurd h (by simp)
    · by_cases hh : hash = []
      · subst hh
        simp [lottery, h0, h2, get_largest_zero] at h
      · rw [lottery_ok_form hash t m tm h0 h2 hh] at h
        have hv : quantile
            (f64Div (to_f64 (fromBytesBE hash)) (to_f64 (2 ^ (8 * hash.length))))
            (t / (tm:ℚ)) m = v := by
          exact_mod_cast congrArg (fun x => x.toOption.getD 0) h
        rw [← hv]
        exact quantile_le _ _ m

theorem quantile_ratio_zero (p : ℚ) (n : ℕ) (hp : p ≤ 1) : quantile 0 p n = 0 := by
  cases n with
  | zero => rfl
  | succ n =>
    have hF : (0:ℚ) ≤ binCDF (n + 1) p 0 := by
      unfold binCDF
      exact pow_nonneg (by linarith) (n + 1)
    unfold quantile scanQ
    rw [if_pos hF]

theorem lottery_allzero32 : lottery (List.replicate 32 0) 1 1 1 = Except.ok 0 := by
  have hform := lottery_ok_form (List.replicate 32 0) 1 1 1 (by norm_num)
    (by norm_num) (by simp)
  have hH : fromBytesBE (List.replicate 32 0) = 0 := by decide
  rw [hform, hH, to_f64_zero, f64Div_zero_left]
  rw [quantile_ratio_zero _ _ (by norm_num)]

theorem lottery_single_zero : lottery [0] 1 2 2 = Except.ok 0 := by
  have hform := lottery_ok_form [0] 1 2 2 (by norm_num) (by norm_num) (by simp)
  have hH : fromBytesBE [0] = 0 := rfl
  rw [hform, hH, to_f64_zero, f64Div_zero_left]
  rw [quantile_ratio_zero _ _ (by norm_num)]

/-! ### Claim theorems -/

/-- Claim C1 (code defect): the source's `verify_select` accepts any
cryptographically valid proof and ignores the claimed vote count entirely
(it does not even receive one), while the spec requires rejecting a
mis-claimed count.  At a concrete input whose recomputed vote count is 0,
the spec-modelled verifier rejects the claimed count 5 but `verify_select`
returns 1 (accept). -/
theorem claim_c1_verify_ignores_count :
    verify_select (fun _ _ _ => Except.ok (List.replicate 32 0)) [] [] [] = 1 ∧
    spec_verify (fun _ _ _ => Except.ok (List.replicate 32 0)) [] 5 [] [] 1 1 1 = false := by
  constructor
  · rfl
  · simp only [spec_verify, lottery_allzero32]
    rfl

/-- Claim C2 is refuted as stated: with totalStake = 0 and a failing VRF
capability, `check_select` aborts with the VRF prove panic, not with the
parameter error — so the parameter check does not happen before the
cryptographic call. -/
theorem claim_c2_counterexample :
    check_select (fun _ _ => Except.error ()) (fun _ => Except.error ()) [] [] 1 1 0 =
      Except.error SortPanic.vrfProveFail ∧
    SortPanic.vrfProveFail ≠ SortPanic.badParams :=
  ⟨rfl, by decide⟩

/-- Claim C2 (amended): when totalStake = 0 or p = threshold / totalStake
lies outside [0,1], select panics (the `Binomial::new` unwrap, modelled
as `SortPanic.badParams`) instead of returning an inspectable error
value, and only after the VRF prove and proof-to-hash calls have
succeeded; the parameters are never clamped and no default vote count is
returned. -/
theorem claim_c2_amended (pv : List ℕ → List ℕ → Except Unit (List ℕ))
    (ph : List ℕ → Except Unit (List ℕ)) (sk seed pi h : List ℕ) (t : ℚ) (m tm : ℕ)
    (hpv : pv sk seed = Except.ok pi) (hph : ph pi = Except.ok h)
    (hbad : tm = 0 ∨ t / (tm:ℚ) < 0 ∨ 1 < t / (tm:ℚ)) :
    check_select pv ph sk seed t m tm = Except.error SortPanic.badParams := by
  simp only [check_select, hpv, hph, lottery_error_of_bad h t m tm hbad]

theorem claim_c2_witness :
    check_select (fun _ _ => Except.ok []) (fun _ => Except.ok [0]) [] [] 1 1 0 =
      Except.error SortPanic.badParams :=
  claim_c2_amended _ _ [] [] [] [0] 1 1 0 rfl rfl (Or.inl rfl)

/-- Claim C3 (code defect): the unit-interval mapping converts H and
2^(8·L) to f64 before dividing.  For the 32-byte all-0xff hash
(H = 2^256 - 1) the conversion rounds H up to 2^256, so the computed
ratio is exactly 1 — not the exact H / 2^256, which is strictly below 1.
H = 0 still maps to ratio 0. -/
theorem claim_c3_precision_loss :
    map_ratio (List.replicate 32 255) = some 1 ∧
    map_ratio (List.replicate 32 0) = some 0 ∧
    ((2:ℚ) ^ (256:ℕ) - 1) / 2 ^ (256:ℕ) < 1 := by
  refine ⟨?_, ?_, ?_⟩
  · have hlen : (List.replicate 32 (255:ℕ)).length = 32 := by simp
    have hH : fromBytesBE (List.replicate 32 255) = 2 ^ 256 - 1 := by decide
    simp only [map_ratio, hlen, get_largest_eq 32 (by norm_num), Option.map_some', hH]
    rw [show 8 * 32 = 256 from rfl, to_f64_pow256_sub_one, to_f64_pow256]
    unfold f64Div
    rw [div_self (by positivity : ((2:ℚ) ^ (256:ℕ)) ≠ 0), roundF64_one]
  · have hlen : (List.replicate 32 (0:ℕ)).length = 32 := by simp
    have hH : fromBytesBE (List.replicate 32 0) = 0 := by decide
    simp only [map_ratio, hlen, get_largest_eq 32 (by norm_num), Option.map_some', hH]
    rw [to_f64_zero, f64Div_zero_left]
  · rw [div_lt_one (by positivity)]
    norm_num

/-- Claim C4: for every ratio in [0,1) and p in [0,1], the quantile loop
returns the least i in [0,n] with ratio ≤ F(i), F the exact CDF of
Binomial(n, p) (when only i = n satisfies it, the loop falls through and
returns n, and F(n) = 1 indeed covers ratio). -/
theorem claim_c4_quantile_least (ratio p : ℚ) (n : ℕ) (h0 : 0 ≤ ratio)
    (h1 : ratio < 1) (hp0 : 0 ≤ p) (hp1 : p ≤ 1) :
    IsLeast {i : ℕ | i ≤ n ∧ ratio ≤ binCDF n p i} (quantile ratio p n) := by
  constructor
  · refine ⟨quantile_le ratio p n, ?_⟩
    rcases Nat.lt_or_ge (quantile ratio p n) n with hlt | hge
    · have hpred := scanQ_pred_of_lt (fun i => ratio ≤ binCDF n p i) n 0
        (by simpa [quantile] using hlt)
      simpa [quantile] using hpred
    · have heq : quantile ratio p n = n := le_antisymm (quantile_le ratio p n) hge
      rw [heq, binCDF_self]
      exact le_of_lt h1
  · intro b hb
    by_contra hcon
    push_neg at hcon
    exact absurd hb.2
      (scanQ_not_pred (fun i => ratio ≤ binCDF n p i) n 0 b (Nat.zero_le b)
        (by simpa [quantile] using hcon))

theorem claim_c4_witness :
    IsLeast {i : ℕ | i ≤ 2 ∧ (0:ℚ) ≤ binCDF 2 (1/2) i} (quantile 0 (1/2) 2) :=
  claim_c4_quantile_least 0 (1/2) 2 le_rfl (by norm_num) (by norm_num) (by norm_num)

/-- Claim C5 is refuted as stated: with stake = 1, totalStake = 1,
threshold = 1 and the all-zero 32-byte hash (which maps to ratio 0),
select returns vote count 0, not 1: F(0) = 0 with p = 1 and
ratio = 0 ≤ 0, so the loop returns 0 at its first step. -/
theorem claim_c5_counterexample :
    lottery (List.replicate 32 0) 1 1 1 = Except.ok 0 ∧ (0:ℕ) ≠ 1 :=
  ⟨lottery_allzero32, by decide⟩

/-- Claim C5 (amended): for p = 1 the quantile returns n for every ratio
in (0,1); at ratio = 0 it returns 0.  Concretely, with stake = 1,
totalStake = 1 and threshold = 1.0, select returns vote count 1 for every
non-empty hash of nonzero value and 0 for a hash of value 0. -/
theorem claim_c5_amended :
    (∀ (r : ℚ) (n : ℕ), 0 < r → r < 1 → quantile r 1 n = n) ∧
    (∀ hash : List ℕ, hash ≠ [] →
      lottery hash 1 1 1 = Except.ok (if fromBytesBE hash = 0 then 0 else 1)) := by
  constructor
  · intro r n h0 _
    exact quantile_p_one_pos r n h0
  · intro hash hne
    have hform := lottery_ok_form hash 1 1 1 (by norm_num) (by norm_num) hne
    rw [hform]
    have hp : (1:ℚ) / ((1:ℕ):ℚ) = 1 := by norm_num
    rw [hp]
    by_cases hH : fromBytesBE hash = 0
    · rw [hH, to_f64_zero, f64Div_zero_left, quantile_ratio_zero 1 1 le_rfl]
      simp
    · rw [if_neg hH]
      have hpos : 0 < f64Div (to_f64 (fromBytesBE hash)) (to_f64 (2 ^ (8 * hash.length))) :=
        f64Div_pos _ _ (to_f64_pos _ (Nat.one_le_iff_ne_zero.mpr hH))
          (to_f64_pos _ (Nat.one_le_pow (8 * hash.length) 2 (by norm_num)))
      rw [quantile_p_one_pos _ 1 hpos]

theorem claim_c5_witness :
    quantile (1/2) 1 3 = 3 ∧ lottery [1] 1 1 1 = Except.ok 1 := by
  constructor
  · exact claim_c5_amended.1 (1/2) 3 (by norm_num) (by norm_num)
  · have h := claim_c5_amended.2 [1] (by simp)
    simpa [fromBytesBE] using h

/-- Claim C6: verification fails closed: any cryptographic failure of
`vrf.verify` makes `verify_select` return 0 as an ordinary value, and the
result is always the plain value 0 or 1 (the function is total: an
adversarial proof cannot crash the verifier). -/
theorem claim_c6_fails_closed (vv : List ℕ → List ℕ → List ℕ → Except Unit (List ℕ))
    (pk pi seed : List ℕ) :
    (∀ e, vv pk pi seed = Except.error e → verify_select vv pk pi seed = 0) ∧
    (verify_select vv pk pi seed = 0 ∨ verify_select vv pk pi seed = 1) := by
  constructor
  · intro e he
    simp only [verify_select, he]
  · unfold verify_select
    cases vv pk pi seed <;> simp

theorem claim_c6_witness :
    verify_select (fun _ _ _ => Except.error ()) [] [] [] = 0 :=
  (claim_c6_fails_closed (fun _ _ _ => Except.error ()) [] [] []).1 () rfl

/-- Claim C7: for fixed p and n the quantile is monotone in the ratio. -/
theorem claim_c7_quantile_mono (r1 r2 p : ℚ) (n : ℕ) (h0 : 0 ≤ r1) (h12 : r1 ≤ r2)
    (h1 : r2 < 1) : quantile r1 p n ≤ quantile r2 p n := by
  unfold quantile
  exact scanQ_mono_pred (fun i => r1 ≤ binCDF n p i) (fun i => r2 ≤ binCDF n p i)
    (fun i hi => le_trans h12 hi) n 0

theorem claim_c7_witness : quantile 0 (1/3) 2 ≤ quantile (1/2) (1/3) 2 :=
  claim_c7_quantile_mono 0 (1/2) (1/3) 2 le_rfl (by norm_num) (by norm_num)

/-- Claim C8: for every hash length L ≥ 1, get_largest(L) computes
exactly 2^(8·L), in arbitrary-precision integer arithmetic. -/
theorem claim_c8_max_value (L : ℕ) (hL : 1 ≤ L) :
    get_largest L = some (2 ^ (8 * L)) :=
  get_largest_eq L (by omega)

theorem claim_c8_witness :
    get_largest 1 = some (2 ^ (8 * 1)) ∧ 2 ^ (8 * 1) = 256 :=
  ⟨claim_c8_max_value 1 le_rfl, by decide⟩

/-- Claim C9: whenever check_select succeeds, the returned vote count
satisfies 0 ≤ voteCount ≤ stake (`money`): the loop returns an index
below `money` or `money` itself. -/
theorem claim_c9_vote_bounded (pv : List ℕ → List ℕ → Except Unit (List ℕ))
    (ph : List ℕ → Except Unit (List ℕ)) (sk seed : List ℕ) (t : ℚ)
    (m tm v : ℕ) (pi : List ℕ)
    (h : check_select pv ph sk seed t m tm = Except.ok (v, pi)) :
    0 ≤ v ∧ v ≤ m := by
  refine ⟨Nat.zero_le v, ?_⟩
  rcases hpv : pv sk seed with e | pi2
  · simp [check_select, hpv] at h
  · rcases hph : ph pi2 with e2 | hash
    · simp [check_select, hpv, hph] at h
    · rcases hl : lottery hash t m tm with e3 | w
      · simp [check_select, hpv, hph, hl] at h
      · simp only [check_select, hpv, hph, hl, Except.ok.injEq, Prod.mk.injEq] at h
        rcases h with ⟨hv, _⟩
        exact hv ▸ lottery_ok_le hash t m tm w hl

theorem claim_c9_witness :
    check_select (fun _ _ => Except.ok []) (fun _ => Except.ok [0]) [] [] 1 2 2 =
      Except.ok (0, []) ∧ (0 ≤ 0 ∧ 0 ≤ 2) := by
  have hcs : check_select (fun _ _ => Except.ok []) (fun _ => Except.ok [0]) [] [] 1 2 2 =
      Except.ok (0, []) := by
    simp only [check_select, lottery_single_zero]
  exact ⟨hcs, claim_c9_vote_bounded _ _ [] [] 1 2 2 0 [] hcs⟩

/-- Claim C10: the lottery computation is total only for non-empty
hashes: for L ≥ 1 the maximum-value computation is defined (and the whole
computation succeeds for valid parameters), while the empty hash parses
an empty string (no value) and always aborts — with valid parameters
precisely at the get_largest unwrap (emptyHash). -/
theorem claim_c10_empty_hash_panics :
    (∀ hash : List ℕ, hash ≠ [] → (get_largest hash.length).isSome = true) ∧
    (get_largest 0 = none) ∧
    (∀ (t : ℚ) (m tm : ℕ), ∃ e, lottery [] t m tm = Except.error e) ∧
    (∀ (t : ℚ) (m tm : ℕ), tm ≠ 0 → ¬(t / (tm:ℚ) < 0 ∨ 1 < t / (tm:ℚ)) →
      lottery [] t m tm = Except.error SortPanic.emptyHash) ∧
    (∀ (hash : List ℕ) (t : ℚ) (m tm : ℕ), hash ≠ [] → tm ≠ 0 →
      ¬(t / (tm:ℚ) < 0 ∨ 1 < t / (tm:ℚ)) →
      ∃ v, lottery hash t m tm = Except.ok v) := by
  refine ⟨?_, rfl, ?_, ?_, ?_⟩
  · intro hash hne
    rw [get_largest_eq hash.length (by simpa [List.length_eq_zero] using hne)]
    rfl
  · intro t m tm
    by_cases h0 : tm = 0
    · exact ⟨SortPanic.badParams, lottery_error_of_bad [] t m tm (Or.inl h0)⟩
    · by_cases h2 : t / (tm:ℚ) < 0 ∨ 1 < t / (tm:ℚ)
      · exact ⟨SortPanic.badParams, lottery_error_of_bad [] t m tm (Or.inr h2)⟩
      · exact ⟨SortPanic.emptyHash, by simp [lottery, h0, h2, get_largest_zero]⟩
  · intro t m tm h0 h2
    simp [lottery, h0, h2, get_largest_zero]
  · intro hash t m tm hne h0 h2
    exact ⟨_, lottery_ok_form hash t m tm h0 h2 hne⟩

theorem claim_c10_witness :
    (get_largest ([1] : List ℕ).length).isSome = true ∧
    lottery [] 1 1 2 = Except.error SortPanic.emptyHash := by
  constructor
  · exact claim_c10_empty_hash_panics.1 [1] (by simp)
  · exact claim_c10_empty_hash_panics.2.2.2.1 1 1 2 (by norm_num) (by norm_num)
